import Mathlib

/-!
Shallow embedding of the comment-classification and redaction engine of
`sofcrtpro/code_processor.py` and of the document post-processing loop of
`sofcrtpro/document_processor.py`.

A Python line (str) is modelled as a `List Char`.  Python's `str.strip`,
`str.startswith`, `str.endswith`, `in` (substring test), `str.count` and
slicing are modelled by the explicit list functions below; Python's
whitespace stripping is modelled over the ASCII whitespace characters,
which covers every line the program manipulates.  Machine integers are
modelled as `Nat`/`Int` (Python integers are unbounded), and the two float
threshold comparisons of `is_english_text` (`x / total > 0.1`,
`x / total > 0.9`) are modelled as the exact rational comparisons
`10 * x > total` and `10 * x > 9 * total`.
-/

abbrev Line := List Char

/-- ASCII whitespace, the characters stripped by `str.strip()` /
split on by `str.split()` for the line data this program handles. -/
def isSpaceChar (c : Char) : Bool :=
  c = ' ' || c = '\t' || c = '\n' || c = '\r' || c = Char.ofNat 11 || c = Char.ofNat 12

/-- Python `s.strip()`. -/
def strip (s : Line) : Line :=
  ((s.dropWhile isSpaceChar).reverse.dropWhile isSpaceChar).reverse

/-- Python `s.startswith(p)`. -/
def startsWith (p s : Line) : Bool := p.isPrefixOf s

/-- Python `s.endswith(p)`. -/
def endsWith (p s : Line) : Bool := p.isSuffixOf s

/-- Python `p in s` (substring containment). -/
def containsSub (p : Line) : Line → Bool
  | [] => p.isPrefixOf []
  | c :: t => p.isPrefixOf (c :: t) || containsSub p t

/-- Python `s.count(p)` for nonempty `p`: non-overlapping occurrences,
scanning left to right.  `fuel` bounds the number of scan steps; each step
consumes at least one character, so `s.length` fuel is always enough. -/
def countSubAux (p : Line) : Nat → Line → Nat
  | _, [] => 0
  | 0, _ => 0
  | fuel + 1, c :: t =>
    if p.isPrefixOf (c :: t) then 1 + countSubAux p fuel (t.drop (p.length - 1))
    else countSubAux p fuel t

def countSub (p s : Line) : Nat := countSubAux p s.length s

/-- Python `s[:len(s)-n]` as used via negative-end slices `s[:-n]`. -/
def dropSuffixN (n : Nat) (s : Line) : Line := s.take (s.length - n)

/-- The comment-marker strings used throughout the module. -/
def hashM : Line := ['#']
def slashesM : Line := ['/', '/']
def tripleDq : Line := ['\"', '\"', '\"']
def tripleSq : Line := [Char.ofNat 39, Char.ofNat 39, Char.ofNat 39]
def slashStarM : Line := ['/', '*']
def starSlashM : Line := ['*', '/']
def starM : Line := ['*']
def slashStarStarM : Line := ['/', '*', '*']
def htmlOpenM : Line := ['<', '!', '-', '-']
def htmlCloseM : Line := ['-', '-', '>']

/-- `is_comment_line` of `code_processor.py` (lines 103-147): the
stateless per-line comment predicate used by the random-ratio policy. -/
def is_comment_line (line : Line) : Bool :=
  let stripped := strip line
  if stripped = [] then false
  else if startsWith hashM stripped then true
  else if startsWith tripleDq stripped || startsWith tripleSq stripped then true
  else if endsWith tripleDq stripped || endsWith tripleSq stripped then true
  else if startsWith slashesM stripped then true
  else if startsWith htmlOpenM stripped && endsWith htmlCloseM stripped then true
  else if (startsWith slashStarM stripped && endsWith starSlashM stripped)
          || (startsWith slashStarStarM stripped && endsWith starSlashM stripped) then true
  else if startsWith starM stripped && !startsWith starSlashM stripped then true
  else false

/-- The character class removed (replaced by a space) by the regex in
`is_english_text` (line 161): digits and the listed punctuation. -/
def isStrippedPunct (c : Char) : Bool :=
  (48 ≤ c.toNat && c.toNat ≤ 57) ||
  ['!', '@', '#', '$', '%', '^', '&', '*', '(', ')', '_', '+', '-', '=',
   '[', ']', Char.ofNat 123, Char.ofNat 125, ';', ':', '\"', Char.ofNat 39,
   ',', '<', '.', '>', '/', '?', '\\', '|', Char.ofNat 96, '~'].contains c

/-- Python `s.split()`: split on whitespace runs, dropping empty tokens.
`acc` is the reversed current token. -/
def splitWsAux : Line → Line → List Line
  | [], acc => if acc = [] then [] else [acc.reverse]
  | c :: t, acc =>
    if isSpaceChar c then
      if acc = [] then splitWsAux t [] else acc.reverse :: splitWsAux t []
    else splitWsAux t (c :: acc)

def splitWs (s : Line) : List Line := splitWsAux s []

/-- The word list built by `is_english_text` (lines 161-163): punctuation
and digits replaced by spaces, then split on whitespace (the per-word
`strip` of the source is a no-op after splitting on whitespace). -/
def englishWords (text : Line) : List Line :=
  splitWs (text.map (fun c => if isStrippedPunct c then ' ' else c))

/-- Count of characters with code point < 128 over the surviving words
(the `english_chars` accumulator of lines 169-177). -/
def englishChars (text : Line) : Nat :=
  ((englishWords text).map (fun w => (w.filter (fun c => c.toNat < 128)).length)).sum

/-- Count of characters with code point ≥ 128 over the surviving words
(the `non_english_chars` accumulator of lines 169-177). -/
def nonEnglishChars (text : Line) : Nat :=
  ((englishWords text).map (fun w => (w.filter (fun c => !(c.toNat < 128))).length)).sum

/-- `is_english_text` of `code_processor.py` (lines 150-186).  The float
comparisons `non/total > 0.1` and `english/total > 0.9` are modelled as
the exact rational comparisons `10*non > total` and `10*english > 9*total`. -/
def is_english_text (text : Line) : Bool :=
  let words := englishWords text
  if words = [] then false
  else
    let english := englishChars text
    let non := nonEnglishChars text
    let total := english + non
    if non > 0 && 10 * non > total then false
    else decide (total > 0) && decide (10 * english > 9 * total)

/-- `is_end_of_line_comment` of `code_processor.py` (lines 189-210). -/
def is_end_of_line_comment (line : Line) : Bool :=
  let stripped := strip line
  if containsSub hashM line && !startsWith hashM stripped then true
  else if containsSub slashesM line && !startsWith slashesM stripped then true
  else false

/-! ## The comment-block classifier: first pass of `remove_large_comments`
(lines 239-286). -/

structure ScanState where
  blocks : List (Nat × Nat)
  blockStart : Option Nat
  inPyTriple : Bool
  inCMulti : Bool
deriving Repr, DecidableEq

def initScanState : ScanState := ⟨[], none, false, false⟩

/-- The per-line comment verdict and continuation-state update of the
first pass (lines 245-271), applied to a non-end-of-line-comment line.
Returns `(is_comment, in_py_triple_quotes, in_c_multiline)`. -/
def classifyLine (stripped : Line) (inPy inC : Bool) : Bool × Bool × Bool :=
  if inPy then
    (true, !(endsWith tripleDq stripped || endsWith tripleSq stripped), inC)
  else if startsWith tripleDq stripped || startsWith tripleSq stripped then
    (true,
     !((endsWith tripleDq stripped && countSub tripleDq stripped > 1)
       || (endsWith tripleSq stripped && countSub tripleSq stripped > 1)),
     inC)
  else if inC then
    (true, inPy, !containsSub starSlashM stripped)
  else if startsWith slashStarM stripped then
    (true, inPy, !containsSub starSlashM stripped)
  else if startsWith hashM stripped || startsWith slashesM stripped then
    (true, inPy, inC)
  else
    (false, inPy, inC)

/-- One iteration of the first-pass loop at index `i` (lines 240-282):
end-of-line-comment lines are skipped outright (`continue`), otherwise the
continuation state is updated and block opening/closing is tracked. -/
def scanStep (i : Nat) (line : Line) (st : ScanState) : ScanState :=
  if is_end_of_line_comment line then st
  else
    let v := classifyLine (strip line) st.inPyTriple st.inCMulti
    let st' : ScanState := { st with inPyTriple := v.2.1, inCMulti := v.2.2 }
    if v.1 then
      match st'.blockStart with
      | some _ => st'
      | none => { st' with blockStart := some i }
    else
      match st'.blockStart with
      | some s => { st' with blocks := st'.blocks ++ [(s, i - 1)], blockStart := none }
      | none => st'

def scanFrom : Nat → List Line → ScanState → ScanState
  | _, [], st => st
  | i, l :: ls, st => scanFrom (i + 1) ls (scanStep i l st)

/-- The block list produced by the first pass, including the final
still-open block closed at `len(content) - 1` (lines 284-286). -/
def commentBlocks (content : List Line) : List (Nat × Nat) :=
  let st := scanFrom 0 content initScanState
  match st.blockStart with
  | some s => st.blocks ++ [(s, content.length - 1)]
  | none => st.blocks

/-! ## The second pass of `remove_large_comments` (lines 288-383). -/

/-- The linear search for the first block containing index `i`
(lines 305-311). -/
def findBlock (blocks : List (Nat × Nat)) (i : Nat) : Option (Nat × Nat) :=
  blocks.find? (fun b => b.1 ≤ i && i ≤ b.2)

/-- Comment-text extraction for a single-line comment (lines 324-337):
the `elif` chain stripping one marker pair, empty if no case matches. -/
def extractSingleCommentText (strippedLine : Line) : Line :=
  if startsWith hashM strippedLine then strip (strippedLine.drop 1)
  else if startsWith slashesM strippedLine then strip (strippedLine.drop 2)
  else if startsWith slashStarM strippedLine && endsWith starSlashM strippedLine then
    strip (dropSuffixN 2 (strippedLine.drop 2))
  else if startsWith tripleDq strippedLine && endsWith tripleDq strippedLine then
    strip (dropSuffixN 3 (strippedLine.drop 3))
  else if startsWith tripleSq strippedLine && endsWith tripleSq strippedLine then
    strip (dropSuffixN 3 (strippedLine.drop 3))
  else []

/-- Marker stripping for one line of a multi-line block (lines 353-372):
the sequential (non-exclusive) `if` chain of slicings. -/
def stripBlockLine (l : Line) : Line :=
  let l := strip l
  let l := if startsWith tripleDq l then l.drop 3 else l
  let l := if endsWith tripleDq l then dropSuffixN 3 l else l
  let l := if startsWith tripleSq l then l.drop 3 else l
  let l := if endsWith tripleSq l then dropSuffixN 3 l else l
  let l := if startsWith slashesM l then l.drop 2 else l
  let l := if startsWith hashM l then l.drop 1 else l
  let l := if startsWith slashStarM l then l.drop 2 else l
  let l := if endsWith starSlashM l then dropSuffixN 2 l else l
  let l := if startsWith starM l && !startsWith starSlashM l then l.drop 1 else l
  l

/-- Reconstructed text of the block `content[s..e]` (lines 350-373):
each line stripped of markers, concatenated with a trailing space. -/
def blockText (content : List Line) (s e : Nat) : Line :=
  ((List.range' s (e + 1 - s)).map (fun j => stripBlockLine (content.getD j []) ++ [' '])).flatten

/-- The second-pass `while i < len(content)` loop (lines 289-382), at
index `i`.  `fuel` bounds the number of loop iterations; every iteration
advances `i` by at least one, so `content.length - i` fuel is exact. -/
def processFromAux (content : List Line) (blocks : List (Nat × Nat))
    (removeEnglish : Bool) : Nat → Nat → List Line
  | 0, _ => []
  | fuel + 1, i =>
    if h : i < content.length then
      let line := content[i]
      if is_end_of_line_comment line then
        line :: processFromAux content blocks removeEnglish fuel (i + 1)
      else
        match findBlock blocks i with
        | none => line :: processFromAux content blocks removeEnglish fuel (i + 1)
        | some (s, e) =>
          if e - s + 1 = 1 then
            if removeEnglish then
              let ct := extractSingleCommentText (strip line)
              if ct ≠ [] && is_english_text ct then
                processFromAux content blocks removeEnglish fuel (i + 1)
              else
                line :: processFromAux content blocks removeEnglish fuel (i + 1)
            else
              line :: processFromAux content blocks removeEnglish fuel (i + 1)
          else
            -- Lines 348-381: whether or not the English test fires, the
            -- whole block is skipped (`i = block_end + 1`, no append).
            if removeEnglish && (strip (blockText content s e) ≠ []
                && is_english_text (strip (blockText content s e))) then
              processFromAux content blocks removeEnglish fuel (e + 1)
            else
              processFromAux content blocks removeEnglish fuel (e + 1)
    else []

/-- `remove_large_comments` of `code_processor.py` (lines 213-383). -/
def remove_large_comments (content : List Line) (removeEnglishComments : Bool) : List Line :=
  if content = [] then []
  else processFromAux content (commentBlocks content) removeEnglishComments content.length 0

/-! ## `remove_single_comments_evenly` (lines 386-427). -/

/-- The candidate indices collected by the loop of lines 400-409: comment
lines (per `is_comment_line`) not flanked on both sides by comment lines. -/
def commentCandidates (content : List Line) : List Nat :=
  (List.range content.length).filter (fun i =>
    is_comment_line (content.getD i []) &&
    !((decide (i > 0) && is_comment_line (content.getD (i - 1) [])) &&
      (decide (i < content.length - 1) && is_comment_line (content.getD (i + 1) []))))

/-- The guarantees `random.sample(population, k)` gives about its result:
`k` pairwise-distinct elements of the population. -/
def SampleOK (population : List Nat) (k : Nat) (picked : List Nat) : Prop :=
  picked.length = k ∧ picked.Nodup ∧ ∀ x ∈ picked, x ∈ population

/-- `remove_single_comments_evenly` of `code_processor.py` (lines 386-427).
The call `random.sample(comment_indices, comments_to_remove)` is abstracted
into the oracle `sample`; theorems quantify over outcomes satisfying
`SampleOK`. -/
def remove_single_comments_evenly (content : List Line) (removeRatio : Int)
    (sample : List Nat → Nat → List Nat) : List Line :=
  let commentIndices := commentCandidates content
  let ratio : Nat := if removeRatio ≤ 0 then 3 else removeRatio.toNat
  let commentsToRemove := commentIndices.length / ratio
  let indicesToRemove :=
    if commentsToRemove > 0 && !commentIndices.isEmpty then
      sample commentIndices commentsToRemove
    else []
  (content.enum.filter (fun p => !(indicesToRemove.contains p.1))).map Prod.snd

/-! ## `split_into_pages` and the `process_code_files` pipeline
(lines 493-545). -/

/-- `split_into_pages` (lines 493-511); `fuel` bounds the number of pages,
`content.length` is always enough for a positive page size.  A page size
of `0` is outside the Python function's domain (`range` with step 0
raises) and returns `[]` here. -/
def splitIntoPagesAux : Nat → List Line → Nat → List (List Line)
  | _, [], _ => []
  | 0, _, _ => []
  | fuel + 1, content, lpp =>
    if lpp = 0 then []
    else content.take lpp :: splitIntoPagesAux fuel (content.drop lpp) lpp

def split_into_pages (content : List Line) (linesPerPage : Nat) : List (List Line) :=
  splitIntoPagesAux content.length content linesPerPage

/-- The redaction/paging pipeline of `process_code_files` (lines 514-545),
with the file merging of `merge_code_files` (pure file I/O) abstracted into
the already-merged `mergedContent` it produces, and `random.sample`
abstracted into `sample` as above.  Note that `remove_english_comments_flag`
is only ever forwarded to `remove_large_comments` (line 536), which runs
only when `remove_large_comments_flag` is set (line 535). -/
def process_merged_content (mergedContent : List Line) (linesPerPage : Nat)
    (removeLargeFlag : Bool) (removeRatio : Int) (removeEnglishFlag : Bool)
    (sample : List Nat → Nat → List Nat) : List Line × List (List Line) :=
  let c1 := if removeLargeFlag then remove_large_comments mergedContent removeEnglishFlag
            else mergedContent
  let c2 := if removeRatio > 0 then remove_single_comments_evenly c1 removeRatio sample
            else c1
  (c2, split_into_pages c2 linesPerPage)

/-! ## `document_processor.py`: the paragraph-processing loop of
`process_document` (lines 87-233), with docx I/O abstracted. -/

/-- `is_comment_line` of `document_processor.py` (lines 41-84): same
disjunction as the code-processor predicate, re-derived locally. -/
def doc_is_comment_line (line : Line) : Bool :=
  let stripped := strip line
  if stripped = [] then false
  else if startsWith hashM stripped then true
  else if startsWith slashesM stripped then true
  else if startsWith tripleDq stripped || startsWith tripleSq stripped then true
  else if endsWith tripleDq stripped || endsWith tripleSq stripped then true
  else if startsWith htmlOpenM stripped && endsWith htmlCloseM stripped then true
  else if (startsWith slashStarM stripped && endsWith starSlashM stripped)
          || (startsWith slashStarStarM stripped && endsWith starSlashM stripped) then true
  else if startsWith starM stripped && !startsWith starSlashM stripped then true
  else false

def common_extensions : List Line :=
  [".py".data, ".java".data, ".c".data, ".cpp".data, ".cs".data, ".js".data,
   ".html".data, ".css".data, ".php".data, ".go".data, ".rb".data, ".swift".data]

/-- `is_filename_line` of `document_processor.py` (lines 17-38). -/
def is_filename_line (line : Line) : Bool :=
  if strip line = [] then false
  else common_extensions.any (fun ext => endsWith ext (strip line))

/-- The `stats` dictionary of `process_document` (lines 134-141). -/
structure DocStats where
  total_lines : Nat := 0
  deleted_filenames : Nat := 0
  deleted_large_comments : Nat := 0
  deleted_english_comments : Nat := 0
  deleted_random_comments : Nat := 0
  remaining_lines : Nat := 0
deriving Repr, DecidableEq

def natToLine (n : Nat) : Line := (toString n).data
def intToLine (n : Int) : Line := (toString n).data

/-- The mutable loop state of `process_document` (lines 143-149), plus the
output accumulators: `newParas` models `new_doc`'s paragraphs and
`deletions` the paragraphs appended to `deleted_doc` during the loop. -/
structure DocLoopState where
  newParas : List Line
  deletions : List Line
  stats : DocStats
  inLargeComment : Bool
  largeCommentLines : List Line
  largeCommentStart : Int
  hasDeletedContent : Bool
deriving Repr, DecidableEq

def initDocLoopState : DocLoopState :=
  { newParas := [], deletions := [], stats := {}, inLargeComment := false,
    largeCommentLines := [], largeCommentStart := -1, hasDeletedContent := false }

/-- The paragraph loop of `process_document` (lines 152-229): `i` is the
current paragraph index, the list argument the remaining paragraphs (so
`doc.paragraphs[i+1]` is the head of `rest`). -/
def processDocLoop (rf rl re : Bool) : Nat → List Line → DocLoopState → DocLoopState
  | _, [], st => st
  | i, line :: rest, st =>
    let st := { st with stats := { st.stats with total_lines := st.stats.total_lines + 1 } }
    if strip line = [] then
      processDocLoop rf rl re (i + 1) rest { st with newParas := st.newParas ++ [line] }
    else if rf && is_filename_line line then
      processDocLoop rf rl re (i + 1) rest
        { st with
          deletions := st.deletions ++ ["文件名 (行 ".data ++ natToLine (i + 1) ++ "): ".data ++ line],
          stats := { st.stats with deleted_filenames := st.stats.deleted_filenames + 1 },
          hasDeletedContent := true }
    else if doc_is_comment_line line then
      let nextIsComment := match rest with
        | [] => false
        | nl :: _ => doc_is_comment_line nl
      let stL :=
        if rl then
          if !st.inLargeComment then
            { st with inLargeComment := true, largeCommentLines := [line],
                      largeCommentStart := (i : Int) }
          else
            { st with largeCommentLines := st.largeCommentLines ++ [line] }
        else st
      let blockEnds := rl && !nextIsComment
      let stL := if blockEnds then { stL with inLargeComment := false } else stL
      if blockEnds && stL.largeCommentLines.length > 1 then
        processDocLoop rf rl re (i + 1) rest
          { stL with
            deletions := stL.deletions
              ++ ["大段注释 (行 ".data ++ intToLine (stL.largeCommentStart + 1) ++ "-".data
                   ++ natToLine (i + 1) ++ "):".data]
              ++ stL.largeCommentLines,
            stats := { stL.stats with deleted_large_comments :=
                         stL.stats.deleted_large_comments + stL.largeCommentLines.length },
            hasDeletedContent := true }
      else
        let ct := extractSingleCommentText (strip line)
        if re && !is_end_of_line_comment line && decide (ct ≠ []) && is_english_text ct then
          processDocLoop rf rl re (i + 1) rest
            { stL with
              deletions := stL.deletions
                ++ ["英文注释 (行 ".data ++ natToLine (i + 1) ++ "): ".data ++ line],
              stats := { stL.stats with deleted_english_comments :=
                           stL.stats.deleted_english_comments + 1 },
              hasDeletedContent := true }
        else
          processDocLoop rf rl re (i + 1) rest
            { stL with newParas := stL.newParas ++ [line],
                       stats := { stL.stats with remaining_lines := stL.stats.remaining_lines + 1 } }
    else
      processDocLoop rf rl re (i + 1) rest
        { st with newParas := st.newParas ++ [line],
                  stats := { st.stats with remaining_lines := st.stats.remaining_lines + 1 } }

/-- The result of `process_document` relevant to its contract: the
retained paragraphs (`new_doc`), the deleted-content document's paragraphs
(header of lines 123-131, then the records appended during the loop, then
the no-deletion note of line 233), and the statistics dictionary. -/
structure DocResult where
  newParas : List Line
  deletedParas : List Line
  stats : DocStats
deriving Repr, DecidableEq

def docHeader (inputName : Line) (rf rl re : Bool) (removeRatio : Int) : List Line :=
  ["删除内容记录".data,
   "原始文档: ".data ++ inputName,
   "删除选项:".data,
   "- 删除文件名: ".data ++ (if rf then "是".data else "否".data),
   "- 删除大段注释: ".data ++ (if rl then "是".data else "否".data),
   "- 删除英文注释: ".data ++ (if re then "是".data else "否".data),
   "- 随机删除注释比例: ".data ++ intToLine removeRatio,
   "".data,
   "被删除的内容:".data]

/-- `process_document` of `document_processor.py` (lines 87-233), with the
docx reading/saving abstracted: the input document is given by its
paragraph texts and the basename of its path, and the two output documents
by their paragraph texts.  The save-time paragraphs of lines 261-262
(wall-clock timestamp, output basename) are outside the model. -/
def process_document (paras : List Line) (inputName : Line)
    (removeFilenames removeLargeFlag removeEnglishFlag : Bool)
    (removeRatio : Int) : DocResult :=
  let st := processDocLoop removeFilenames removeLargeFlag removeEnglishFlag 0 paras
              initDocLoopState
  { newParas := st.newParas,
    deletedParas :=
      docHeader inputName removeFilenames removeLargeFlag removeEnglishFlag removeRatio
        ++ st.deletions
        ++ (if st.hasDeletedContent then [] else ["未删除任何内容。".data]),
    stats := st.stats }

/-! ## Invariants of the first-pass scan. -/

/-- Invariant of the first-pass loop state before processing index `i`:
recorded blocks are well-formed (`start ≤ end`), closed strictly below `i`,
start at non-end-of-line-comment lines, and form a strictly increasing
disjoint chain; an open block started below `i` at a non-end-of-line-comment
line and after every recorded block. -/
def ScanInv (content : List Line) (i : Nat) (st : ScanState) : Prop :=
  (∀ p ∈ st.blocks, p.1 ≤ p.2 ∧ p.2 < i ∧
     is_end_of_line_comment (content.getD p.1 []) = false) ∧
  List.Pairwise (fun p q => p.2 < q.1) st.blocks ∧
  (∀ s, st.blockStart = some s →
     s < i ∧ is_end_of_line_comment (content.getD s []) = false ∧
     ∀ p ∈ st.blocks, p.2 < s)

lemma scanInv_init (content : List Line) : ScanInv content 0 initScanState := by
  refine ⟨?_, ?_, ?_⟩ <;> simp [initScanState]

lemma scanStep_inv {content : List Line} {i : Nat} {line : Line} {st : ScanState}
    (hline : content.getD i [] = line) (hinv : ScanInv content i st) :
    ScanInv content (i + 1) (scanStep i line st) := by
  obtain ⟨h1, h2, h3⟩ := hinv
  unfold scanStep
  by_cases heol : is_end_of_line_comment line = true
  · simp only [heol, if_true]
    exact ⟨fun p hp => ⟨(h1 p hp).1, by have := (h1 p hp).2.1; omega, (h1 p hp).2.2⟩, h2,
      fun s hs => ⟨by have := (h3 s hs).1; omega, (h3 s hs).2.1, (h3 s hs).2.2⟩⟩
  · simp only [heol, if_false, Bool.false_eq_true]
    set v := classifyLine (strip line) st.inPyTriple st.inCMulti with hv
    by_cases hc : v.1 = true
    · simp only [hc, if_true]
      cases hbs : st.blockStart with
      | some s =>
        simp only [hbs]
        refine ⟨fun p hp => ⟨(h1 p hp).1, by have := (h1 p hp).2.1; omega, (h1 p hp).2.2⟩, h2,
          fun t ht => ?_⟩
        simp only [Option.some.injEq] at ht
        obtain ⟨hA, hB, hC⟩ := h3 s hbs
        subst ht
        exact ⟨by omega, hB, hC⟩
      | none =>
        simp only [hbs]
        refine ⟨fun p hp => ⟨(h1 p hp).1, by have := (h1 p hp).2.1; omega, (h1 p hp).2.2⟩, h2,
          fun t ht => ?_⟩
        simp only [Option.some.injEq] at ht
        subst ht
        exact ⟨by omega, by rw [hline]; simpa using heol,
          fun p hp => (h1 p hp).2.1⟩
    · simp only [hc, if_false, Bool.false_eq_true]
      cases hbs : st.blockStart with
      | some s =>
        simp only [hbs]
        obtain ⟨hs1, hs2, hs3⟩ := h3 s hbs
        refine ⟨?_, ?_, by simp⟩
        · intro p hp
          rcases List.mem_append.mp hp with hp | hp
          · exact ⟨(h1 p hp).1, by have := (h1 p hp).2.1; omega, (h1 p hp).2.2⟩
          · simp only [List.mem_singleton] at hp
            subst hp
            exact ⟨by omega, by omega, hs2⟩
        · refine List.pairwise_append.mpr ⟨h2, by simp, ?_⟩
          intro p hp q hq
          simp only [List.mem_singleton] at hq
          subst hq
          have := hs3 p hp
          omega
      | none =>
        simp only [hbs]
        exact ⟨fun p hp => ⟨(h1 p hp).1, by have := (h1 p hp).2.1; omega, (h1 p hp).2.2⟩, h2,
          fun s' hs' => by simp at hs'⟩

lemma scanFrom_inv (content : List Line) :
    ∀ (ls : List Line) (i : Nat) (st : ScanState),
      content.drop i = ls → ScanInv content i st →
      ScanInv content (i + ls.length) (scanFrom i ls st) := by
  intro ls
  induction ls with
  | nil => intro i st _ h; simpa using h
  | cons l t ih =>
    intro i st hdrop hinv
    have hlen : i < content.length := by
      by_contra hcon
      rw [List.drop_eq_nil_of_le (by omega)] at hdrop
      exact absurd hdrop (by simp)
    have hline : content.getD i [] = l := by
      have h9 : content[i]? = some l := by
        rw [← List.head?_drop, hdrop]; rfl
      simp [List.getD_eq_getElem?_getD, h9]
    have hdrop' : content.drop (i + 1) = t := by
      have : content.drop (i + 1) = (content.drop i).drop 1 := by
        rw [← List.drop_drop]
      rw [this, hdrop]; rfl
    have hstep := scanStep_inv hline hinv
    have := ih (i + 1) (scanStep i l st) hdrop' hstep
    have heq : scanFrom i (l :: t) st = scanFrom (i + 1) t (scanStep i l st) := rfl
    rw [heq]
    have harith : i + 1 + t.length = i + (l :: t).length := by simp; omega
    rwa [harith] at this

/-- Well-formedness of the block list produced by the first pass. -/
lemma commentBlocks_inv (content : List Line) :
    (∀ p ∈ commentBlocks content, p.1 ≤ p.2 ∧ p.2 < content.length ∧
       is_end_of_line_comment (content.getD p.1 []) = false) ∧
    List.Pairwise (fun p q => p.2 < q.1) (commentBlocks content) := by
  have h := scanFrom_inv content content 0 initScanState (by simp) (scanInv_init content)
  rw [Nat.zero_add] at h
  obtain ⟨h1, h2, h3⟩ := h
  unfold commentBlocks
  cases hbs : (scanFrom 0 content initScanState).blockStart with
  | none =>
    simp only [hbs]
    exact ⟨h1, h2⟩
  | some s =>
    simp only [hbs]
    obtain ⟨hs1, hs2, hs3⟩ := h3 s hbs
    constructor
    · intro p hp
      rcases List.mem_append.mp hp with hp | hp
      · exact h1 p hp
      · simp only [List.mem_singleton] at hp
        subst hp
        exact ⟨by omega, by omega, hs2⟩
    · refine List.pairwise_append.mpr ⟨h2, by simp, ?_⟩
      intro p hp q hq
      simp only [List.mem_singleton] at hq
      subst hq
      have := hs3 p hp
      omega

/-! ## Characterization of the second pass. -/

/-- Index `i` lies inside some comment block of length ≥ 2. -/
def inBigBlock (blocks : List (Nat × Nat)) (i : Nat) : Bool :=
  blocks.any (fun b => b.1 ≤ i && i ≤ b.2 && b.1 < b.2)

/-- The lines at indices outside every length-≥2 comment block, in order. -/
def bigBlockSurvivors (content : List Line) : List Line :=
  ((List.range content.length).filter (fun j => !inBigBlock (commentBlocks content) j)).map
    (fun j => content.getD j [])

lemma getD_eq_get {l : List Line} {i : Nat} (h : i < l.length) :
    l.getD i [] = l[i] := by
  simp [List.getD_eq_getElem?_getD, List.getElem?_eq_getElem h]

lemma blocks_mem_unique {blocks : List (Nat × Nat)}
    (hP : List.Pairwise (fun p q => p.2 < q.1) blocks) {p q : Nat × Nat} {i : Nat}
    (hp : p ∈ blocks) (hq : q ∈ blocks)
    (hpi : p.1 ≤ i) (hip : i ≤ p.2) (hqi : q.1 ≤ i) (hiq : i ≤ q.2) : p = q := by
  by_contra hne
  have hS : List.Pairwise (fun p q : Nat × Nat => p.2 < q.1 ∨ q.2 < p.1) blocks :=
    hP.imp (fun h => Or.inl h)
  have := List.Pairwise.forall (fun _ _ h => Or.symm h) hS hp hq hne
  rcases this with h | h <;> omega

lemma processFromAux_succ (content : List Line) (blocks : List (Nat × Nat))
    (b : Bool) (fuel i : Nat) (h : i < content.length) :
    processFromAux content blocks b (fuel + 1) i =
      (if is_end_of_line_comment content[i] then
        content[i] :: processFromAux content blocks b fuel (i + 1)
      else
        match findBlock blocks i with
        | none => content[i] :: processFromAux content blocks b fuel (i + 1)
        | some (s, e) =>
          if e - s + 1 = 1 then
            if b then
              if extractSingleCommentText (strip content[i]) ≠ []
                  && is_english_text (extractSingleCommentText (strip content[i])) then
                processFromAux content blocks b fuel (i + 1)
              else
                content[i] :: processFromAux content blocks b fuel (i + 1)
            else
              content[i] :: processFromAux content blocks b fuel (i + 1)
          else
            if b && (strip (blockText content s e) ≠ []
                && is_english_text (strip (blockText content s e))) then
              processFromAux content blocks b fuel (e + 1)
            else
              processFromAux content blocks b fuel (e + 1)) := by
  conv_lhs => rw [processFromAux]
  rw [dif_pos h]

/-- Characterization of the second pass under the first-pass invariants:
with `remove_english = False` the loop emits exactly the lines at indices
outside every length-≥2 block (in order), and for either flag value the
result is a subsequence of those lines — i.e. every length-≥2 block is
dropped in its entirety, whatever its language classification. -/
lemma processFromAux_spec (content : List Line) (blocks : List (Nat × Nat))
    (hB : ∀ p ∈ blocks, p.1 ≤ p.2 ∧ p.2 < content.length ∧
       is_end_of_line_comment (content.getD p.1 []) = false)
    (hP : List.Pairwise (fun p q => p.2 < q.1) blocks) :
    ∀ (fuel i : Nat), content.length - i ≤ fuel →
      (∀ p ∈ blocks, i ≤ p.1 ∨ p.2 < i) →
      processFromAux content blocks false fuel i =
        ((List.range' i (content.length - i)).filter (fun j => !inBigBlock blocks j)).map
          (fun j => content.getD j []) ∧
      ∀ b, List.Sublist (processFromAux content blocks b fuel i)
        (((List.range' i (content.length - i)).filter (fun j => !inBigBlock blocks j)).map
          (fun j => content.getD j [])) := by
  intro fuel
  induction fuel with
  | zero =>
    intro i hfuel hinv
    have hz : content.length - i = 0 := by omega
    simp [processFromAux, hz]
  | succ fuel ih =>
    intro i hfuel hinv
    by_cases h : i < content.length
    · have hline : content.getD i [] = content[i] := getD_eq_get h
      have hcons : List.range' i (content.length - i)
          = i :: List.range' (i + 1) (content.length - (i + 1)) := by
        have harith : content.length - i = (content.length - (i + 1)) + 1 := by omega
        rw [harith]
        rfl
      by_cases heol : is_end_of_line_comment content[i] = true
      · -- end-of-line-comment line: always kept, loop advances by one
        have hni : inBigBlock blocks i = false := by
          by_contra hcon
          rw [Bool.not_eq_false, inBigBlock, List.any_eq_true] at hcon
          obtain ⟨p, hp, hpP⟩ := hcon
          simp only [Bool.and_eq_true, decide_eq_true_eq] at hpP
          have h1 := hB p hp
          have hps : p.1 = i := by have := hinv p hp; omega
          rw [hps, hline, heol] at h1
          exact absurd h1.2.2 (by simp)
        have hinv' : ∀ p ∈ blocks, i + 1 ≤ p.1 ∨ p.2 < i + 1 := by
          intro p hp
          rcases hinv p hp with hle | hlt
          · rcases Nat.lt_or_ge i p.1 with hlt2 | hge
            · omega
            · have hps : p.1 = i := by omega
              have h1 := hB p hp
              rw [hps, hline, heol] at h1
              exact absurd h1.2.2 (by simp)
          · omega
        obtain ⟨ihEq, ihSub⟩ := ih (i + 1) (by omega) hinv'
        have hkeep : ∀ (tl : List Nat),
            ((i :: tl).filter (fun j => !inBigBlock blocks j)).map
              (fun j => content.getD j [])
            = content[i] :: (tl.filter (fun j => !inBigBlock blocks j)).map
              (fun j => content.getD j []) := by
          intro tl
          simp [List.filter_cons, hni, List.getElem?_eq_getElem h]
        rw [hcons, hkeep]
        constructor
        · rw [processFromAux_succ content blocks false fuel i h, if_pos heol]
          exact congrArg _ ihEq
        · intro b
          rw [processFromAux_succ content blocks b fuel i h, if_pos heol]
          exact List.Sublist.cons₂ _ (ihSub b)
      · rcases hfb : findBlock blocks i with _ | ⟨s, e⟩
        · -- no block contains i: line kept, loop advances by one
          have hnone := List.find?_eq_none.mp hfb
          have hni : inBigBlock blocks i = false := by
            by_contra hcon
            rw [Bool.not_eq_false, inBigBlock, List.any_eq_true] at hcon
            obtain ⟨p, hp, hpP⟩ := hcon
            simp only [Bool.and_eq_true, decide_eq_true_eq] at hpP
            have hn := hnone p hp
            simp only [Bool.and_eq_true, decide_eq_true_eq] at hn
            exact hn ⟨hpP.1.1, hpP.1.2⟩
          have hinv' : ∀ p ∈ blocks, i + 1 ≤ p.1 ∨ p.2 < i + 1 := by
            intro p hp
            rcases hinv p hp with hle | hlt
            · rcases Nat.lt_or_ge i p.1 with hlt2 | hge
              · omega
              · exfalso
                have hn := hnone p hp
                simp only [Bool.and_eq_true, decide_eq_true_eq] at hn
                have h1 := hB p hp
                exact hn ⟨by omega, by omega⟩
            · omega
          obtain ⟨ihEq, ihSub⟩ := ih (i + 1) (by omega) hinv'
          have hkeep : ∀ (tl : List Nat),
              ((i :: tl).filter (fun j => !inBigBlock blocks j)).map
                (fun j => content.getD j [])
              = content[i] :: (tl.filter (fun j => !inBigBlock blocks j)).map
                (fun j => content.getD j []) := by
            intro tl
            simp [List.filter_cons, hni, List.getElem?_eq_getElem h]
          rw [hcons, hkeep]
          constructor
          · rw [processFromAux_succ content blocks false fuel i h, if_neg heol]
            simp only [hfb]
            exact congrArg _ ihEq
          · intro b
            rw [processFromAux_succ content blocks b fuel i h, if_neg heol]
            simp only [hfb]
            exact List.Sublist.cons₂ _ (ihSub b)
        · -- the first matching block (s, e) contains i
          have hmem : (s, e) ∈ blocks := List.mem_of_find?_eq_some hfb
          have hpred := List.find?_some hfb
          simp only [Bool.and_eq_true, decide_eq_true_eq] at hpred
          have hse := hB (s, e) hmem
          have hieq : i = s := by
            rcases hinv (s, e) hmem with hle | hlt
            · simp only at hle
              omega
            · simp only at hlt
              omega
          by_cases hlen1 : e - s + 1 = 1
          · -- single-line block (i, i): kept unless English removal fires
            have hee : e = i := by simp only at hse; omega
            have hni : inBigBlock blocks i = false := by
              by_contra hcon
              rw [Bool.not_eq_false, inBigBlock, List.any_eq_true] at hcon
              obtain ⟨p, hp, hpP⟩ := hcon
              simp only [Bool.and_eq_true, decide_eq_true_eq] at hpP
              have heq : p = (s, e) := blocks_mem_unique hP hp hmem hpP.1.1 hpP.1.2
                (by omega) (by omega)
              rw [heq] at hpP
              simp only at hpP
              omega
            have hinv' : ∀ p ∈ blocks, i + 1 ≤ p.1 ∨ p.2 < i + 1 := by
              intro p hp
              rcases hinv p hp with hle | hlt
              · rcases Nat.lt_or_ge i p.1 with hlt2 | hge
                · omega
                · have heq : p = (s, e) := blocks_mem_unique (i := i) hP hp hmem (by omega)
                    (by have := (hB p hp).1; omega) (by omega) (by omega)
                  rw [heq]
                  simp only
                  omega
              · omega
            obtain ⟨ihEq, ihSub⟩ := ih (i + 1) (by omega) hinv'
            have hkeep : ∀ (tl : List Nat),
                ((i :: tl).filter (fun j => !inBigBlock blocks j)).map
                  (fun j => content.getD j [])
                = content[i] :: (tl.filter (fun j => !inBigBlock blocks j)).map
                  (fun j => content.getD j []) := by
              intro tl
              simp [List.filter_cons, hni, List.getElem?_eq_getElem h]
            rw [hcons, hkeep]
            constructor
            · rw [processFromAux_succ content blocks false fuel i h, if_neg heol]
              simp only [hfb, if_pos hlen1, Bool.false_eq_true, if_false]
              exact congrArg _ ihEq
            · intro b
              rw [processFromAux_succ content blocks b fuel i h, if_neg heol]
              simp only [hfb, if_pos hlen1]
              by_cases hb : b = true
              · rw [if_pos hb]
                by_cases hcond : (decide (extractSingleCommentText (strip content[i]) ≠ [])
                    && is_english_text (extractSingleCommentText (strip content[i]))) = true
                · rw [if_pos hcond]
                  exact List.Sublist.cons _ (ihSub b)
                · rw [if_neg hcond]
                  exact List.Sublist.cons₂ _ (ihSub b)
              · rw [if_neg hb]
                exact List.Sublist.cons₂ _ (ihSub b)
          · -- block of length ≥ 2: the whole of [i, e] is skipped
            have hlt : s < e := by simp only at hse; omega
            have helen : e < content.length := hse.2.1
            have hbig : ∀ j, i ≤ j → j ≤ e → inBigBlock blocks j = true := by
              intro j hj1 hj2
              rw [inBigBlock, List.any_eq_true]
              refine ⟨(s, e), hmem, ?_⟩
              simp only [Bool.and_eq_true, decide_eq_true_eq]
              exact ⟨⟨by omega, hj2⟩, hlt⟩
            have hsplit : ((List.range' i (content.length - i)).filter
                  (fun j => !inBigBlock blocks j)).map (fun j => content.getD j [])
                = ((List.range' (e + 1) (content.length - (e + 1))).filter
                  (fun j => !inBigBlock blocks j)).map (fun j => content.getD j []) := by
              have hsum : content.length - i = (content.length - (e + 1)) + (e + 1 - i) := by
                omega
              have happ := List.range'_append i (e + 1 - i) (content.length - (e + 1)) 1
              simp only [Nat.one_mul] at happ
              have hstart : i + (e + 1 - i) = e + 1 := by omega
              rw [hstart] at happ
              rw [hsum, ← happ, List.filter_append, List.map_append]
              have hnil : (List.range' i (e + 1 - i)).filter
                  (fun j => !inBigBlock blocks j) = [] := by
                rw [List.filter_eq_nil_iff]
                intro j hj
                rw [List.mem_range'_1] at hj
                simp [hbig j hj.1 (by omega)]
              rw [hnil]
              simp
            have hinv' : ∀ p ∈ blocks, e + 1 ≤ p.1 ∨ p.2 < e + 1 := by
              intro p hp
              by_cases hpe : p = (s, e)
              · rw [hpe]; simp only; omega
              · have hS : List.Pairwise (fun p q : Nat × Nat => p.2 < q.1 ∨ q.2 < p.1) blocks :=
                  hP.imp (fun hh => Or.inl hh)
                have := List.Pairwise.forall (fun _ _ hh => Or.symm hh) hS hp hmem hpe
                rcases this with hh | hh
                · simp only at hh; omega
                · simp only at hh; omega
            obtain ⟨ihEq, ihSub⟩ := ih (e + 1) (by omega) hinv'
            rw [hsplit]
            constructor
            · rw [processFromAux_succ content blocks false fuel i h, if_neg heol]
              simp only [hfb, if_neg hlen1, Bool.false_eq_true, false_and, if_false]
              exact ihEq
            · intro b
              rw [processFromAux_succ content blocks b fuel i h, if_neg heol]
              simp only [hfb, if_neg hlen1]
              split
              · exact ihSub b
              · exact ihSub b
    · have hz : content.length - i = 0 := by omega
      rw [hz]
      constructor
      · rw [processFromAux]
        rw [dif_neg h]
        simp
      · intro b
        rw [processFromAux]
        rw [dif_neg h]
        simp

/-- With `remove_english_comments=False`, `remove_large_comments` returns
exactly the lines at indices outside every length-≥2 comment block. -/
lemma remove_large_comments_false_eq (content : List Line) :
    remove_large_comments content false = bigBlockSurvivors content := by
  by_cases hc : content = []
  · subst hc
    rfl
  · have hinv := commentBlocks_inv content
    have hspec := processFromAux_spec content (commentBlocks content) hinv.1 hinv.2
      content.length 0 (by omega) (fun p _ => Or.inl (Nat.zero_le _))
    unfold remove_large_comments bigBlockSurvivors
    rw [if_neg hc, hspec.1, Nat.sub_zero, List.range_eq_range']

/-- For either value of `remove_english_comments`, the output of
`remove_large_comments` is a subsequence of those survivor lines: every
length-≥2 comment block is dropped in its entirety. -/
lemma remove_large_comments_sublist (content : List Line) (b : Bool) :
    List.Sublist (remove_large_comments content b) (bigBlockSurvivors content) := by
  by_cases hc : content = []
  · subst hc
    simp [remove_large_comments]
  · have hinv := commentBlocks_inv content
    have hspec := processFromAux_spec content (commentBlocks content) hinv.1 hinv.2
      content.length 0 (by omega) (fun p _ => Or.inl (Nat.zero_le _))
    unfold remove_large_comments bigBlockSurvivors
    rw [if_neg hc, List.range_eq_range']
    have := hspec.2 b
    rwa [Nat.sub_zero] at this

lemma bigBlockSurvivors_length_le (content : List Line) :
    (bigBlockSurvivors content).length ≤ content.length := by
  unfold bigBlockSurvivors
  rw [List.length_map]
  calc (List.filter _ (List.range content.length)).length
      ≤ (List.range content.length).length := List.length_filter_le _ _
    _ = content.length := List.length_range content.length

/-! ## Counting removed lines for the random-ratio policy. -/

lemma contains_true {l : List Nat} {a : Nat} (h : a ∈ l) : l.contains a = true := by
  show l.elem a = true
  exact List.elem_iff.mpr h

lemma contains_false {l : List Nat} {a : Nat} (h : a ∉ l) : l.contains a = false := by
  by_contra hcon
  rw [Bool.not_eq_false] at hcon
  exact h (List.elem_iff.mp hcon)

lemma length_filter_enumFrom_notMem :
    ∀ (content : List Line) (n : Nat) (picked : List Nat),
      picked.Nodup → (∀ j ∈ picked, n ≤ j ∧ j < n + content.length) →
      ((content.enumFrom n).filter (fun p => !(picked.contains p.1))).length + picked.length
        = content.length := by
  intro content
  induction content with
  | nil =>
    intro n picked _ hb
    cases picked with
    | nil => simp
    | cons a t => exact absurd (hb a (by simp)) (by simp)
  | cons c cs ih =>
    intro n picked hnd hb
    rw [List.enumFrom_cons, List.filter_cons]
    by_cases hmem : n ∈ picked
    · have hct := contains_true hmem
      rw [if_neg (by simp [hct, hmem])]
      have hfilter_eq : (List.enumFrom (n + 1) cs).filter (fun p => !(picked.contains p.1))
          = (List.enumFrom (n + 1) cs).filter (fun p => !((picked.erase n).contains p.1)) := by
        apply List.filter_congr
        intro p hp
        have hge : n + 1 ≤ p.1 := by
          obtain ⟨h1, _, _⟩ := List.mem_enumFrom (x := p.2) (i := p.1) (j := n + 1)
            (by simpa using hp)
          exact h1
        have hne : p.1 ≠ n := by omega
        have hiff : p.1 ∈ picked.erase n ↔ p.1 ∈ picked := List.mem_erase_of_ne hne
        by_cases hpm : p.1 ∈ picked
        · rw [contains_true hpm, contains_true (hiff.mpr hpm)]
        · rw [contains_false hpm, contains_false (fun hcon => hpm (hiff.mp hcon))]
      rw [hfilter_eq]
      have hbnd : ∀ j ∈ picked.erase n, n + 1 ≤ j ∧ j < (n + 1) + cs.length := by
        intro j hj
        have hjp : j ∈ picked := List.mem_of_mem_erase hj
        have hjn : j ≠ n := ((List.Nodup.mem_erase_iff hnd).mp hj).1
        have := hb j hjp
        simp only [List.length_cons] at this
        omega
      have hrec := ih (n + 1) (picked.erase n) (List.Nodup.erase n hnd) hbnd
      have hlen : (picked.erase n).length = picked.length - 1 :=
        List.length_erase_of_mem hmem
      have hpos : 0 < picked.length := List.length_pos.mpr (List.ne_nil_of_mem hmem)
      simp only [List.length_cons]
      omega
    · have hcf := contains_false hmem
      rw [if_pos (by simp [hcf, hmem])]
      have hbnd : ∀ j ∈ picked, n + 1 ≤ j ∧ j < (n + 1) + cs.length := by
        intro j hj
        have := hb j hj
        have hjn : j ≠ n := fun hcon => hmem (hcon ▸ hj)
        simp only [List.length_cons] at this
        omega
      have hrec := ih (n + 1) picked hnd hbnd
      simp only [List.length_cons]
      omega

lemma mem_commentCandidates {content : List Line} {i : Nat} :
    i ∈ commentCandidates content ↔
      i < content.length ∧ is_comment_line (content.getD i []) = true ∧
      ¬((0 < i ∧ is_comment_line (content.getD (i - 1) []) = true) ∧
        (i < content.length - 1 ∧ is_comment_line (content.getD (i + 1) []) = true)) := by
  simp only [commentCandidates, List.mem_filter, List.mem_range, Bool.and_eq_true,
    Bool.not_eq_true', decide_eq_true_eq]
  constructor
  · rintro ⟨h1, h2, h3⟩
    refine ⟨h1, h2, ?_⟩
    rintro ⟨⟨ha1, ha2⟩, hb1, hb2⟩
    have htrue : ((decide (i > 0) && is_comment_line (content.getD (i - 1) [])) &&
        (decide (i < content.length - 1) && is_comment_line (content.getD (i + 1) []))) = true := by
      simp only [Bool.and_eq_true, decide_eq_true_eq]
      exact ⟨⟨ha1, ha2⟩, hb1, hb2⟩
    rw [htrue] at h3
    cases h3
  · rintro ⟨h1, h2, h3⟩
    refine ⟨h1, h2, ?_⟩
    by_contra hcon
    rw [Bool.not_eq_false] at hcon
    simp only [Bool.and_eq_true, decide_eq_true_eq] at hcon
    exact h3 ⟨⟨hcon.1.1, hcon.1.2⟩, hcon.2.1, hcon.2.2⟩

/-- Under a valid sample outcome, `remove_single_comments_evenly` deletes
exactly the sampled candidate indices and keeps every other line in its
original order. -/
lemma remove_single_spec (content : List Line) (ratio : Int)
    (sample : List Nat → Nat → List Nat)
    (hok : SampleOK (commentCandidates content)
      ((commentCandidates content).length / (if ratio ≤ 0 then 3 else ratio.toNat))
      (sample (commentCandidates content)
        ((commentCandidates content).length / (if ratio ≤ 0 then 3 else ratio.toNat)))) :
    remove_single_comments_evenly content ratio sample
      = (content.enum.filter (fun p =>
          !((sample (commentCandidates content)
              ((commentCandidates content).length / (if ratio ≤ 0 then 3 else ratio.toNat))).contains
            p.1))).map Prod.snd := by
  unfold remove_single_comments_evenly
  by_cases hcond : ((commentCandidates content).length /
      (if ratio ≤ 0 then 3 else ratio.toNat) > 0 && !(commentCandidates content).isEmpty) = true
  · simp [hcond]
  · simp only [hcond, Bool.false_eq_true, if_neg (by simp : ¬False)]
    have hk0 : (commentCandidates content).length /
        (if ratio ≤ 0 then 3 else ratio.toNat) = 0 := by
      by_cases hcs : commentCandidates content = []
      · rw [hcs]
        simp
      · by_cases hk : (commentCandidates content).length /
            (if ratio ≤ 0 then 3 else ratio.toNat) > 0
        · exfalso
          apply hcond
          simp only [Bool.and_eq_true, decide_eq_true_eq, Bool.not_eq_true',
            List.isEmpty_eq_false]
          exact ⟨hk, hcs⟩
        · exact Nat.le_zero.mp (Nat.not_lt.mp hk)
    have h0 : (sample (commentCandidates content)
        ((commentCandidates content).length / (if ratio ≤ 0 then 3 else ratio.toNat))).length
        = 0 := by
      rw [hok.1, hk0]
    rw [List.length_eq_zero.mp h0]

/-- Under a valid sample outcome, exactly `⌊candidates/ratio⌋` lines are
removed. -/
lemma remove_single_length (content : List Line) (ratio : Int)
    (sample : List Nat → Nat → List Nat)
    (hok : SampleOK (commentCandidates content)
      ((commentCandidates content).length / (if ratio ≤ 0 then 3 else ratio.toNat))
      (sample (commentCandidates content)
        ((commentCandidates content).length / (if ratio ≤ 0 then 3 else ratio.toNat)))) :
    (remove_single_comments_evenly content ratio sample).length
      = content.length -
        (commentCandidates content).length / (if ratio ≤ 0 then 3 else ratio.toNat) := by
  rw [remove_single_spec content ratio sample hok, List.length_map]
  have hbnd : ∀ j ∈ sample (commentCandidates content)
      ((commentCandidates content).length / (if ratio ≤ 0 then 3 else ratio.toNat)),
      0 ≤ j ∧ j < 0 + content.length := by
    intro j hj
    have hjc := hok.2.2 j hj
    have := (mem_commentCandidates.mp hjc).1
    omega
  have hcount := length_filter_enumFrom_notMem content 0
    (sample (commentCandidates content)
      ((commentCandidates content).length / (if ratio ≤ 0 then 3 else ratio.toNat)))
    hok.2.1 hbnd
  have henum : content.enum = List.enumFrom 0 content := rfl
  rw [henum]
  have hkk := hok.1
  omega

/-- Under a valid sample outcome, a line whose index is not classified by
`is_comment_line` is always kept. -/
lemma remove_single_keeps (content : List Line) (ratio : Int)
    (sample : List Nat → Nat → List Nat)
    (hok : SampleOK (commentCandidates content)
      ((commentCandidates content).length / (if ratio ≤ 0 then 3 else ratio.toNat))
      (sample (commentCandidates content)
        ((commentCandidates content).length / (if ratio ≤ 0 then 3 else ratio.toNat))))
    (i : Nat) (h : i < content.length)
    (hic : is_comment_line (content.getD i []) = false) :
    content.getD i [] ∈ remove_single_comments_evenly content ratio sample := by
  rw [remove_single_spec content ratio sample hok]
  have hnot : i ∉ sample (commentCandidates content)
      ((commentCandidates content).length / (if ratio ≤ 0 then 3 else ratio.toNat)) := by
    intro hcon
    have hm := (mem_commentCandidates.mp (hok.2.2 i hcon)).2.1
    rw [hic] at hm
    cases hm
  have h9 : content.enum[i]? = some (i, content.getD i []) := by
    rw [List.getElem?_enum, List.getElem?_eq_getElem h, getD_eq_get h]
    rfl
  have hmem := List.getElem?_mem h9
  exact List.mem_map_of_mem _
    (List.mem_filter.mpr ⟨hmem, by simp [contains_false hnot, hnot]⟩)

/-- The paragraph loop never touches the `deleted_random_comments`
counter. -/
lemma processDocLoop_deleted_random (rf rl re : Bool) :
    ∀ (paras : List Line) (i : Nat) (st : DocLoopState),
      (processDocLoop rf rl re i paras st).stats.deleted_random_comments
        = st.stats.deleted_random_comments := by
  intro paras
  induction paras with
  | nil => intro i st; rfl
  | cons l rest ih =>
    intro i st
    simp only [processDocLoop]
    repeat' split
    all_goals rw [ih]

/-! ## Claim theorems. -/

/-- C1 (code_bug evaluation): the spec's test vector
`['# comment', 'x = 1  # trailing']` with large-block removal enabled and
`remove_english_comments=False`.  The claim (and the code's own comments,
lines 241 and 293) say the output equals the input; the code instead
leaves the block open across the skipped end-of-line-comment line, records
the length-2 block `(0, 1)`, and deletes both lines — including the code
line that merely carries a trailing comment. -/
theorem C1_code_eval :
    remove_large_comments ["# comment".data, "x = 1  # trailing".data] false = [] ∧
    is_end_of_line_comment "x = 1  # trailing".data = true ∧
    commentBlocks ["# comment".data, "x = 1  # trailing".data] = [(0, 1)] ∧
    ([] : List Line) ≠ ["# comment".data, "x = 1  # trailing".data] := by
  refine ⟨by decide, by decide, by decide, by decide⟩

/-- C3 (code_bug evaluation): on `['# comment', 'x = 1  # trailing']` the
single forward pass produces the block list `[(0, 1)]`, which covers the
end-of-line-comment line at index 1, so the blocks do not cover exactly
the non-end-of-line comment-classified lines, and
`sum(block lengths) + count(end-of-line-comment lines)` already exceeds
the number of lines, falsifying the claimed identity whatever the count of
plain code lines. -/
theorem C3_code_eval :
    commentBlocks ["# comment".data, "x = 1  # trailing".data] = [(0, 1)] ∧
    is_end_of_line_comment
      ((["# comment".data, "x = 1  # trailing".data] : List Line).getD 1 []) = true ∧
    ((commentBlocks ["# comment".data, "x = 1  # trailing".data]).map
        (fun p => p.2 - p.1 + 1)).sum
      + (((["# comment".data, "x = 1  # trailing".data] : List Line)).filter
          (fun l => is_end_of_line_comment l)).length
      > (["# comment".data, "x = 1  # trailing".data] : List Line).length := by
  refine ⟨by decide, by decide, by decide⟩

/-- C2 (counterexample): the two-line Chinese comment block
`['# 第一行', '# 第二行']` forms the length-2 block `(0, 1)` and is *not*
classified English, yet with `remove_english_comments=True` the whole
block is still dropped — the claim's "otherwise the whole block is
retained unmodified" is false: lines 348-381 skip to `block_end + 1` on
both paths and never append a length-≥2 block to the result. -/
theorem C2_counterexample :
    commentBlocks ["# 第一行".data, "# 第二行".data] = [(0, 1)] ∧
    is_english_text (strip (blockText ["# 第一行".data, "# 第二行".data] 0 1)) = false ∧
    remove_large_comments ["# 第一行".data, "# 第二行".data] true = [] := by
  refine ⟨by decide, by decide, by decide⟩

/-- C2 (amended): for every line sequence, every comment block of
length ≥ 2 is dropped in its entirety by `remove_large_comments`
regardless of the `remove_english_comments` flag and regardless of its
English classification — the output is always a subsequence of the lines
at indices outside all length-≥2 blocks; with
`remove_english_comments=False` it is exactly those lines, in order. -/
theorem C2_amended_thm (content : List Line) (b : Bool) :
    remove_large_comments content false = bigBlockSurvivors content ∧
    List.Sublist (remove_large_comments content b) (bigBlockSurvivors content) :=
  ⟨remove_large_comments_false_eq content, remove_large_comments_sublist content b⟩

/-- C4 (counterexample): `process_code_files` with
`remove_english_comments_flag=True` but `remove_large_comments_flag=False`
does *not* apply Policy B: the single-line English comment block `(0, 0)`
survives unchanged, because the english flag is only forwarded into
`remove_large_comments` (line 536), which runs only under the large flag
(line 535).  With the large flag also set, the same line is dropped. -/
theorem C4_counterexample :
    commentBlocks ["# This is pure English comment".data] = [(0, 0)] ∧
    is_english_text
      (extractSingleCommentText (strip "# This is pure English comment".data)) = true ∧
    process_merged_content ["# This is pure English comment".data] 50 false 0 true
        (fun _ _ => [])
      = (["# This is pure English comment".data], [["# This is pure English comment".data]]) ∧
    process_merged_content ["# This is pure English comment".data] 50 true 0 true
        (fun _ _ => [])
      = ([], []) := by
  refine ⟨by decide, by decide, by decide, by decide⟩

/-- C4 (amended): Policy B is gated under `remove_large_comments_flag`:
when that flag is false, the `remove_english_comments_flag` has no effect
whatsoever on the pipeline's output. -/
theorem C4_amended_thm (mergedContent : List Line) (linesPerPage : Nat)
    (removeRatio : Int) (sample : List Nat → Nat → List Nat) (e₁ e₂ : Bool) :
    process_merged_content mergedContent linesPerPage false removeRatio e₁ sample
      = process_merged_content mergedContent linesPerPage false removeRatio e₂ sample := rfl

/-- C5 (counterexample): the triple-quote continuation state does not
remember which marker opened it.  A state opened by `'''` is closed by a
line whose trimmed content ends only with `\"\"\"` — the claim says such a
line leaves the state open. -/
theorem C5_counterexample :
    startsWith tripleSq (strip "'''".data) = true ∧
    (scanStep 0 "'''".data initScanState).inPyTriple = true ∧
    endsWith tripleSq (strip "abc\"\"\"".data) = false ∧
    endsWith tripleDq (strip "abc\"\"\"".data) = true ∧
    (scanFrom 0 ["'''".data, "abc\"\"\"".data] initScanState).inPyTriple = false ∧
    commentBlocks ["'''".data, "abc\"\"\"".data, "code".data] = [(0, 1)] := by
  refine ⟨by decide, by decide, by decide, by decide, by decide, by decide⟩

/-- C5 (amended): while the classifier is inside an open triple-quote
state, each non-end-of-line-comment line is classified as comment (the
step leaves a block open), and the state is closed exactly when the line's
trimmed content ends with *either* triple-quote marker, regardless of
which marker opened the state. -/
theorem C5_amended_thm (i : Nat) (line : Line) (st : ScanState)
    (hpy : st.inPyTriple = true)
    (heol : is_end_of_line_comment line = false) :
    (scanStep i line st).blockStart.isSome = true ∧
    ((scanStep i line st).inPyTriple = false ↔
      (endsWith tripleDq (strip line) || endsWith tripleSq (strip line)) = true) := by
  unfold scanStep
  rw [if_neg (by simp [heol])]
  unfold classifyLine
  rw [if_pos hpy]
  cases hbs : st.blockStart with
  | some s =>
    simp only [hbs]
    refine ⟨rfl, ?_⟩
    cases hend : (endsWith tripleDq (strip line) || endsWith tripleSq (strip line)) <;>
      simp [hend]
  | none =>
    simp only [hbs]
    refine ⟨rfl, ?_⟩
    cases hend : (endsWith tripleDq (strip line) || endsWith tripleSq (strip line)) <;>
      simp [hend]

/-- Witness for C5's amended theorem at a concrete open state and line. -/
theorem C5_amended_witness :
    (scanStep 3 "closing line'''".data ⟨[], some 0, true, false⟩).blockStart.isSome = true ∧
    ((scanStep 3 "closing line'''".data ⟨[], some 0, true, false⟩).inPyTriple = false ↔
      (endsWith tripleDq (strip "closing line'''".data)
        || endsWith tripleSq (strip "closing line'''".data)) = true) :=
  C5_amended_thm 3 "closing line'''".data ⟨[], some 0, true, false⟩ rfl (by decide)

/-- C6 (counterexample): a line with code and a trailing `#` comment that
happens to end with a triple-quote marker is an end-of-line comment *and*
satisfies `is_comment_line`, so it is a random-removal candidate; with
ratio 1 and a single candidate, the only valid `random.sample` outcome is
`[0]` and the code-carrying line is deleted — the claim says such lines
are never candidates and always survive. -/
theorem C6_counterexample :
    is_end_of_line_comment "x = 1 # end\"\"\"".data = true ∧
    is_comment_line "x = 1 # end\"\"\"".data = true ∧
    commentCandidates ["x = 1 # end\"\"\"".data] = [0] ∧
    SampleOK (commentCandidates ["x = 1 # end\"\"\"".data])
      ((commentCandidates ["x = 1 # end\"\"\"".data]).length /
        (if (1 : Int) ≤ 0 then 3 else (1 : Int).toNat)) [0] ∧
    remove_single_comments_evenly ["x = 1 # end\"\"\"".data] 1 (fun _ _ => [0]) = [] := by
  refine ⟨by decide, by decide, by decide, ⟨by decide, by decide, by decide⟩, by decide⟩

/-- C6 (amended): for every line sequence, ratio and valid sample outcome,
random-ratio removal only ever deletes lines satisfying `is_comment_line`;
in particular an end-of-line-comment line that does not itself start or
end with a comment marker (so `is_comment_line` is false, as for
`'x = 1  # trailing'`) is never a candidate and always appears in the
output.  (End-of-line comment lines that additionally match
`is_comment_line`, e.g. ending in a triple quote, *can* be deleted.) -/
theorem C6_amended_thm (content : List Line) (ratio : Int)
    (sample : List Nat → Nat → List Nat)
    (hok : SampleOK (commentCandidates content)
      ((commentCandidates content).length / (if ratio ≤ 0 then 3 else ratio.toNat))
      (sample (commentCandidates content)
        ((commentCandidates content).length / (if ratio ≤ 0 then 3 else ratio.toNat))))
    (i : Nat) (h : i < content.length)
    (hic : is_comment_line (content.getD i []) = false) :
    (∀ j ∈ sample (commentCandidates content)
        ((commentCandidates content).length / (if ratio ≤ 0 then 3 else ratio.toNat)),
      is_comment_line (content.getD j []) = true) ∧
    content.getD i [] ∈ remove_single_comments_evenly content ratio sample := by
  refine ⟨?_, remove_single_keeps content ratio sample hok i h hic⟩
  intro j hj
  exact (mem_commentCandidates.mp (hok.2.2 j hj)).2.1

/-- Witness for C6's amended theorem: a plain trailing-comment line
survives random removal. -/
theorem C6_amended_witness :
    (∀ j ∈ (fun (_ : List Nat) (_ : Nat) => ([] : List Nat)) (commentCandidates
        ["x = 1  # trailing".data])
        ((commentCandidates ["x = 1  # trailing".data]).length /
          (if (3 : Int) ≤ 0 then 3 else (3 : Int).toNat)),
      is_comment_line ((["x = 1  # trailing".data] : List Line).getD j []) = true) ∧
    (["x = 1  # trailing".data] : List Line).getD 0 []
      ∈ remove_single_comments_evenly ["x = 1  # trailing".data] 3 (fun _ _ => []) :=
  C6_amended_thm ["x = 1  # trailing".data] 3 (fun _ _ => [])
    ⟨by decide, by decide, by intro x hx; simp at hx⟩ 0 (by decide) (by decide)

/-- C7: `is_english_text` returns false when no words survive the
punctuation/digit stripping; otherwise it returns true exactly when the
total surviving character count is positive, the non-ASCII share is not
both positive and above 1/10, and the ASCII share exceeds 9/10 — and the
three quoted evaluations (plus the spec's mixed-script example) hold. -/
theorem C7_thm :
    (∀ t : Line, englishWords t = [] → is_english_text t = false) ∧
    (∀ t : Line, is_english_text t = true ↔
      (0 < englishChars t + nonEnglishChars t ∧
       ¬(0 < nonEnglishChars t ∧
         10 * nonEnglishChars t > englishChars t + nonEnglishChars t) ∧
       10 * englishChars t > 9 * (englishChars t + nonEnglishChars t))) ∧
    is_english_text "This is pure English text".data = true ∧
    is_english_text "这是纯中文文本".data = false ∧
    is_english_text "".data = false ∧
    is_english_text "80% English text with some 中文词语".data = false := by
  refine ⟨?_, ?_, by decide, by decide, by decide, by decide⟩
  · intro t hw
    simp [is_english_text, hw]
  · intro t
    unfold is_english_text
    by_cases hw : englishWords t = []
    · rw [if_pos hw]
      have he : englishChars t = 0 := by simp [englishChars, hw]
      have hn : nonEnglishChars t = 0 := by simp [nonEnglishChars, hw]
      simp [he, hn]
    · rw [if_neg hw]
      dsimp only
      split
      · rename_i hc
        simp only [Bool.and_eq_true, decide_eq_true_eq] at hc
        simp only [Bool.false_eq_true, false_iff]
        rintro ⟨_, h2, _⟩
        exact h2 ⟨hc.1, hc.2⟩
      · rename_i hc
        simp only [Bool.and_eq_true, decide_eq_true_eq, not_and] at hc
        simp only [Bool.and_eq_true, decide_eq_true_eq]
        constructor
        · rintro ⟨h1, h2⟩
          refine ⟨h1, ?_, h2⟩
          rintro ⟨hA, hB⟩
          exact hc hA hB
        · rintro ⟨h1, _, h3⟩
          exact ⟨h1, h3⟩

/-- Witness for C7 at a whitespace-only input, which yields no words. -/
theorem C7_witness : is_english_text "   ".data = false :=
  C7_thm.1 "   ".data (by decide)

/-- C8: full characterization of `remove_single_comments_evenly` under a
valid `random.sample` outcome: the candidates are exactly the
`is_comment_line` lines not flanked on both sides by comment lines, a
non-positive ratio is clamped to 3 (the divisor is always positive),
exactly `⌊candidates/ratio⌋` sampled candidate lines are removed, and the
remaining lines are emitted unchanged in their original order; with ratio
3 over 9 candidates exactly 3 lines are removed. -/
theorem C8_thm (content : List Line) (ratio : Int)
    (sample : List Nat → Nat → List Nat) (cs : List Nat) (r k : Nat)
    (hcs : cs = commentCandidates content)
    (hr : r = if ratio ≤ 0 then 3 else ratio.toNat)
    (hk : k = cs.length / r)
    (hok : SampleOK cs k (sample cs k)) :
    (∀ i, i ∈ cs ↔ i < content.length ∧ is_comment_line (content.getD i []) = true ∧
      ¬((0 < i ∧ is_comment_line (content.getD (i - 1) []) = true) ∧
        (i < content.length - 1 ∧ is_comment_line (content.getD (i + 1) []) = true))) ∧
    0 < r ∧
    remove_single_comments_evenly content ratio sample
      = (content.enum.filter (fun p => !((sample cs k).contains p.1))).map Prod.snd ∧
    (sample cs k).length = k ∧
    (remove_single_comments_evenly content ratio sample).length = content.length - k ∧
    (cs.length = 9 ∧ ratio = 3 → k = 3) := by
  subst hcs
  subst hr
  subst hk
  refine ⟨fun i => mem_commentCandidates, ?_, ?_, hok.1, ?_, ?_⟩
  · split
    · omega
    · rename_i hgt
      omega
  · exact remove_single_spec content ratio sample hok
  · exact remove_single_length content ratio sample hok
  · rintro ⟨h9, h3⟩
    subst h3
    rw [h9]
    decide

def c8Content : List Line :=
  ["# a".data, "x1".data, "# b".data, "x2".data, "# c".data, "x3".data,
   "# d".data, "x4".data, "# e".data, "x5".data, "# f".data, "x6".data,
   "# g".data, "x7".data, "# h".data, "x8".data, "# i".data]

/-- Witness for C8: nine isolated single-line comments with ratio 3 and
the sample outcome `[0, 4, 8]` — exactly 3 of 17 lines are removed. -/
theorem C8_witness :
    (remove_single_comments_evenly c8Content 3 (fun _ _ => [0, 4, 8])).length
      = c8Content.length - 3 :=
  (C8_thm c8Content 3 (fun _ _ => [0, 4, 8]) (commentCandidates c8Content) 3 3
    rfl (by decide) (by decide) ⟨by decide, by decide, by decide⟩).2.2.2.2.1

/-- C9: both redaction functions are total on every line sequence —
including empty, single-line and unterminated-marker inputs — and the two
operations Python could fail on are always in their domains: every block
recorded by the first pass is well-formed and in bounds (so every
`content[j]` access of the second pass is valid), and the number of lines
`random.sample` is asked for never exceeds the candidate population.  The
outputs never exceed the input length. -/
theorem C9_thm :
    (∀ (content : List Line) (b : Bool),
      (remove_large_comments content b).length ≤ content.length) ∧
    (∀ (content : List Line) (ratio : Int) (sample : List Nat → Nat → List Nat),
      (remove_single_comments_evenly content ratio sample).length ≤ content.length) ∧
    (∀ content : List Line, ∀ p ∈ commentBlocks content,
      p.1 ≤ p.2 ∧ p.2 < content.length) ∧
    (∀ (content : List Line) (ratio : Int),
      (commentCandidates content).length / (if ratio ≤ 0 then 3 else ratio.toNat)
        ≤ (commentCandidates content).length) ∧
    remove_large_comments ["\"\"\"".data] false = ["\"\"\"".data] ∧
    remove_large_comments ["/*".data, "x".data] false = [] ∧
    remove_large_comments [] true = [] ∧
    remove_single_comments_evenly [] 0 (fun _ _ => []) = [] := by
  refine ⟨?_, ?_, ?_, ?_, by decide, by decide, by decide, by decide⟩
  · intro content b
    exact le_trans (List.Sublist.length_le (remove_large_comments_sublist content b))
      (bigBlockSurvivors_length_le content)
  · intro content ratio sample
    unfold remove_single_comments_evenly
    dsimp only
    rw [List.length_map]
    calc (List.filter _ content.enum).length
        ≤ content.enum.length := List.length_filter_le _ _
      _ = content.length := List.enum_length
  · intro content p hp
    have hfacts := (commentBlocks_inv content).1 p hp
    exact ⟨hfacts.1, hfacts.2.1⟩
  · intro content ratio
    exact Nat.div_le_self _ _

/-- Witness for C9's block-bounds conjunct at a concrete two-line input. -/
theorem C9_witness :
    ((0, 1) : Nat × Nat).1 ≤ ((0, 1) : Nat × Nat).2 ∧
    ((0, 1) : Nat × Nat).2 < (["# a".data, "# b".data] : List Line).length :=
  C9_thm.2.2.1 ["# a".data, "# b".data] (0, 1) (by decide)

/-- C10: the document-processing path never applies the random-ratio
policy: two `process_document` runs differing only in
`remove_comments_ratio` retain exactly the same paragraphs and produce the
same statistics, and `stats['deleted_random_comments']` is always 0. -/
theorem C10_thm (paras : List Line) (inputName : Line) (rf rl re : Bool)
    (r1 r2 : Int) :
    (process_document paras inputName rf rl re r1).newParas
      = (process_document paras inputName rf rl re r2).newParas ∧
    (process_document paras inputName rf rl re r1).stats
      = (process_document paras inputName rf rl re r2).stats ∧
    (process_document paras inputName rf rl re r1).stats.deleted_random_comments = 0 := by
  refine ⟨rfl, rfl, ?_⟩
  show (processDocLoop rf rl re 0 paras initDocLoopState).stats.deleted_random_comments = 0
  rw [processDocLoop_deleted_random]
  rfl
